import Mathlib

/- Verification of the two numeric/geometric subsystems of REDPy's plotting
module (redpy/plotting_bak.py): the timeline interval clipper
(generateLines), the occurrence binner (plotFamilyOccurrence), and the
correlation-matrix completion performed in plotReport.  Times, paddings,
bin widths and correlation coefficients are modelled as rationals; the
base-10 logarithm used for rate colouring is modelled with Real.logb.
Fallible comparator calls (redpy.correlation.xcorr1x1, which can raise)
are modelled with Except. -/

/-! ## Definitions: the shallow embedding -/

/-- Shallow embedding of generateLines.  The Python function initialises
add_rarrow = add_larrow = add_line = False and x1 = x2 = 0, then runs a
sequential if/elif chain; the returned tuple is
(add_line, add_larrow, add_rarrow, x1, x2).  A Python comparison
mintime <= famstart is written mintime ≤ famstart, and
maxtime >= famstart + longev is written famstart + longev ≤ maxtime. -/
def generateLines (mintime maxtime barpad famstart longev : ℚ) :
    Bool × Bool × Bool × ℚ × ℚ :=
  if mintime ≤ famstart ∧ famstart + longev ≤ maxtime then
    (true, false, false, famstart, famstart + longev)
  else if mintime ≤ famstart ∧ maxtime ≤ famstart then
    (false, false, false, 0, 0)
  else if mintime ≤ famstart ∧ maxtime ≤ famstart + longev then
    (true, false, true, famstart, maxtime + barpad)
  else if famstart ≤ mintime ∧ famstart + longev ≤ maxtime ∧
      mintime ≤ famstart + longev then
    (true, true, false, mintime - barpad, famstart + longev)
  else if famstart ≤ mintime ∧ maxtime ≤ famstart + longev then
    (true, true, true, mintime - barpad, maxtime + barpad)
  else
    (false, false, false, 0, 0)

/-- Case A of the spec's clipping decision table: min ≤ start and
max ≥ end (with end = start + length). -/
def specCaseA (mn mx s l : ℚ) : Prop := mn ≤ s ∧ s + l ≤ mx

/-- Case B of the spec's clipping decision table: min ≤ start and
max ≤ start. -/
def specCaseB (mn mx s l : ℚ) : Prop := mn ≤ s ∧ mx ≤ s

/-- Case C of the spec's clipping decision table: min ≤ start and
start < max < end. -/
def specCaseC (mn mx s l : ℚ) : Prop := mn ≤ s ∧ s < mx ∧ mx < s + l

/-- Case D of the spec's clipping decision table: min ≥ start,
max ≥ end and min ≤ end. -/
def specCaseD (mn mx s l : ℚ) : Prop := s ≤ mn ∧ s + l ≤ mx ∧ mn ≤ s + l

/-- Case E of the spec's clipping decision table: min ≥ start and
max ≤ end. -/
def specCaseE (mn mx s l : ℚ) : Prop := s ≤ mn ∧ mx ≤ s + l

/-- Case F of the spec's clipping decision table: none of A..E applies. -/
def specCaseF (mn mx s l : ℚ) : Prop :=
  ¬ specCaseA mn mx s l ∧ ¬ specCaseB mn mx s l ∧ ¬ specCaseC mn mx s l ∧
    ¬ specCaseD mn mx s l ∧ ¬ specCaseE mn mx s l

/-- Shallow embedding of the rate-mode colour index computed per nonempty
bin: int(min(255, 255*(i/3))) with i = log10(count) when
binsize >= 1 (day-or-longer bins), and int(min(255, 255*(i/2)))
otherwise.  Python's int() truncation coincides with Int.floor on these
values, which are nonnegative for count ≥ 1. -/
noncomputable def rateIndex (binsize : ℚ) (c : ℕ) : ℤ :=
  Int.floor (min 255 (255 * (Real.logb 10 c /
    (if 1 ≤ binsize then (3 : ℝ) else 2))))

/-- The colour-index list over a histogram, mirroring
histlog = np.log10(hist[hist>0]) and the following list comprehension:
only nonempty bins contribute, in order. -/
noncomputable def rateIndices (binsize : ℚ) (hist : List ℕ) : List ℤ :=
  (hist.filter (fun c => decide (0 < c))).map (rateIndex binsize)

/-- Modelled from the spec's words (rate mode):
index = clamp(255 * log10(count) / divisor, 0, 255), divisor = 3 if
the bin is a day or longer else 2, floored to an integer. -/
noncomputable def specRateIndex (binsize : ℚ) (c : ℕ) : ℤ :=
  Int.floor (max 0 (min 255 (255 * Real.logb 10 c /
    (if 1 ≤ binsize then (3 : ℝ) else 2))))

/-- A dense correlation matrix, indexed by family positions. -/
abbrev Mat := ℕ → ℕ → ℚ

/-- Single matrix-cell assignment C[a, b] = v. -/
def upd (M : Mat) (a b : ℕ) (v : ℚ) : Mat :=
  fun i j => if i = a ∧ j = b then v else M i j

/-- The symmetric pair of assignments Cfull[i,j] = cor; Cfull[j,i] = cor. -/
def symUpd (M : Mat) (i j : ℕ) (v : ℚ) : Mat :=
  upd (upd M i j v) j i v

/-- np.eye(n): ones on the diagonal inside the n-by-n block. -/
def eyeM (n : ℕ) : Mat := fun i j => if i = j ∧ i < n then 1 else 0

/-- One row of the correlation table ctable: the ids of the two compared
events and their stored cross-correlation coefficient ccc. -/
structure CEntry where
  id1 : ℕ
  id2 : ℕ
  ccc : ℚ
  deriving DecidableEq

/-- The ctable rows selected for the family:
ix = np.where(np.in1d(id2, idf)). -/
def famEntries (idf : List ℕ) (ct : List CEntry) : List CEntry :=
  ct.filter (fun e => decide (e.id2 ∈ idf))

/-- Position of an event id inside the family id list idf:
np.where(idf == xx)[0][0], the first occurrence. -/
def idxIn (idf : List ℕ) (x : ℕ) : ℕ := List.indexOf x idf

/-- First fancy assignment C[r1, r2] = ccc[ix], elementwise left to
right (a later duplicate position overwrites an earlier one, as in
numpy). -/
def scatter1 (idf : List ℕ) (es : List CEntry) (M : Mat) : Mat :=
  es.foldl (fun A e => upd A (idxIn idf e.id1) (idxIn idf e.id2) e.ccc) M

/-- Second fancy assignment C[r2, r1] = ccc[ix]. -/
def scatter2 (idf : List ℕ) (es : List CEntry) (M : Mat) : Mat :=
  es.foldl (fun A e => upd A (idxIn idf e.id2) (idxIn idf e.id1) e.ccc) M

/-- The Stored matrix C of plotReport: np.eye(len(idf)) followed by the
two symmetric fancy assignments over the family-relevant ctable rows. -/
def storedC (idf : List ℕ) (ct : List CEntry) : Mat :=
  scatter2 idf (famEntries idf ct)
    (scatter1 idf (famEntries idf ct) (eyeM idf.length))

/-- Cind = C[catalogind, :][:, catalogind]: symmetric reindexing of the
Stored matrix by the chronological argsort permutation, kept abstract. -/
def permuteMat (perm : ℕ → ℕ) (M : Mat) : Mat := fun i j => M (perm i) (perm j)

/-- Distinctness of unordered id pairs between two ctable rows. -/
def distinctPair (e f : CEntry) : Prop :=
  ¬ (e.id1 = f.id1 ∧ e.id2 = f.id2) ∧ ¬ (e.id1 = f.id2 ∧ e.id2 = f.id1)

/-- The ordered upper-triangle index pairs visited by the completion
double loop for i in range(len(famcat)-1): for j in range(i+1,
len(famcat)) (row-major order, i < j < n). -/
def pairList (n : ℕ) : List (ℕ × ℕ) :=
  (List.range (n - 1)).flatMap
    (fun i => (List.range' (i + 1) (n - 1 - i)).map (fun j => (i, j)))

/-- Shallow embedding of the matrix-completion loop of plotReport
(lines 1740-1744): for each visited pair (i, j) with i < j, if
Cfull[i,j] == 0 the comparator xcorr1x1 is invoked and its coefficient is
written to Cfull[i,j] and Cfull[j,i]; otherwise the pair is skipped.  The
comparator may fail (xcorr1x1 raising an exception), which aborts the
loop: there is no try/except around it in the source.  The returned list
instruments which pairs actually invoked the comparator. -/
def fillPairs {E : Type} (cmp : ℕ → ℕ → Except E ℚ) :
    List (ℕ × ℕ) → Mat → Except E (Mat × List (ℕ × ℕ))
  | [], M => Except.ok (M, [])
  | (i, j) :: rest, M =>
    if M i j = 0 then
      match cmp i j with
      | Except.error e => Except.error e
      | Except.ok c =>
        match fillPairs cmp rest (symUpd M i j c) with
        | Except.error e => Except.error e
        | Except.ok (M2, calls) => Except.ok (M2, (i, j) :: calls)
    else fillPairs cmp rest M

/-- The value 9/10 in reduced normal form (the stored coefficient of the
concrete scenario's pair (1, 2)). -/
def qNineTenths : ℚ := Rat.mk' 9 10

/-- The value 1/2 in reduced normal form, used as the comparator's
coefficient in concrete scenarios. -/
def qHalf : ℚ := Rat.mk' 1 2

/-- Scenario store: only the pair (1, 2) with similarity 0.9. -/
def scenCt : List CEntry := [⟨1, 2, qNineTenths⟩]

/-- Scenario Stored matrix for members [1, 2, 3] (identity reindexing). -/
def cindScen : Mat := permuteMat (fun i => i) (storedC [1, 2, 3] scenCt)

/-- A comparator that always succeeds with coefficient 1/2. -/
def cmpHalf : ℕ → ℕ → Except Unit ℚ := fun _ _ => Except.ok qHalf

/-- The scenario's completed Full matrix: cells (0,2) and (1,2) filled. -/
def fullScen : Mat := symUpd (symUpd cindScen 0 2 qHalf) 1 2 qHalf

/-- A comparator that always fails (xcorr1x1 raising). -/
def cmpFailU : ℕ → ℕ → Except Unit ℚ := fun _ _ => Except.error ()

/-- A store whose only pair (1, 2) carries coefficient exactly 0. -/
def zeroCt : List CEntry := [⟨1, 2, 0⟩]

/-- Python max over a list of times (0 for the empty list, on which
Python's max raises instead). -/
def qmax : List ℚ → ℚ
  | [] => 0
  | x :: xs => xs.foldl max x

/-- Python min over a list of times (0 for the empty list). -/
def qmin : List ℚ → ℚ
  | [] => 0
  | x :: xs => xs.foldl min x

/-- numpy.arange(lo, hi, step): the k-th element is lo + k*step, with
ceil((hi - lo)/step) elements (none at all when the range runs the wrong
way for the step's sign).  A zero step raises ZeroDivisionError in
numpy, modelled as none. -/
def arangeQ (lo hi step : ℚ) : Option (List ℚ) :=
  if step = 0 then none
  else some ((List.range (Int.toNat (Int.ceil ((hi - lo) / step)))).map
    (fun k : ℕ => lo + (k : ℚ) * step))

/-- numpy.histogram's bin-edge validity test
np.any(bin_edges[:-1] > bin_edges[1:]): true when some adjacent pair of
edges decreases, in which case np.histogram raises ValueError. -/
def edgesDecreasing : List ℚ → Bool
  | a :: b :: rest => decide (b < a) || edgesDecreasing (b :: rest)
  | _ => false

/-- numpy.histogram counts for the given bin edges: bin k collects the
data in [e_k, e_{k+1}), the final bin being closed on the right. -/
def histCounts (data edges : List ℚ) : List ℕ :=
  (List.range (edges.length - 1)).map (fun k =>
    if k = edges.length - 2 then
      (data.filter (fun t => decide (edges.getD k 0 ≤ t) &&
        decide (t ≤ edges.getD (k + 1) 0))).length
    else
      (data.filter (fun t => decide (edges.getD k 0 ≤ t) &&
        decide (t < edges.getD (k + 1) 0))).length)

/-- Per-run parameters of the occurrence binner: the visible window
[mintime, maxtime], the member-count threshold minplot, the bin width
binsize (days) and the arrow padding barpad. -/
structure OccParams where
  mintime : ℚ
  maxtime : ℚ
  minplot : ℕ
  binsize : ℚ
  barpad : ℚ
  deriving DecidableEq

/-- One family's input: its member event times dt[members] and its
famstarts[clustNum] and longevity[clustNum] values. -/
structure FamIn where
  dtm : List ℚ
  famstart : ℚ
  longev : ℚ
  deriving DecidableEq

/-- One included family's contribution to the occurrence timeline: the
quad blocks (left edge, right edge, bin count) for nonempty bins with
left edge after mintime, the lifespan line/arrow data of generateLines,
the member-count label, and the hover bounding-box x-extent.  The block
colour is a function of the carried bin count (rateIndex in rate
mode). -/
structure FamOut where
  blocks : List (ℚ × ℚ × ℕ)
  line : Bool
  larrow : Bool
  rarrow : Bool
  x1 : ℚ
  x2 : ℚ
  labelX : ℚ
  labelCount : ℕ
  boxL : ℚ
  boxR : ℚ
  deriving DecidableEq

/-- Shallow embedding of one iteration of the family loop of
plotFamilyOccurrence (Bokeh path): the events/bin histogram over
[min(dt), max(dt)+binsize) is computed first (before the guards), and
output is produced only when the family passes the two guards
len(dt[members]) >= minplot and max(dt[members]) > mintime.  The result
distinguishes the Python exceptions raised along the way from an
excluded family (Except.ok none) and a contribution
(Except.ok (some out)): an empty member list raises at min() of an
empty sequence, a zero bin width raises ZeroDivisionError inside
np.arange, decreasing bin edges (negative bin width) make np.histogram
raise ValueError, and a plotted family with no nonempty bin raises at
the label's max() of an empty sequence (the figure being under
construction is discarded when the exception propagates). -/
def familyContribution (P : OccParams) (f : FamIn) :
    Except Unit (Option FamOut) :=
  if f.dtm.isEmpty then Except.error ()
  else
    match arangeQ (qmin f.dtm) (qmax f.dtm + P.binsize) P.binsize with
    | none => Except.error ()
    | some edges =>
      if edgesDecreasing edges then Except.error ()
      else
        let counts := histCounts f.dtm edges
        let lefts := ((edges.zip counts).filter
          (fun ec => decide (0 < ec.2))).map (fun ec => ec.1)
        let poscounts := counts.filter (fun c => decide (0 < c))
        if P.minplot ≤ f.dtm.length then
          if P.mintime < qmax f.dtm then
            if lefts.isEmpty then Except.error ()
            else
              let gl := generateLines P.mintime P.maxtime P.barpad
                f.famstart f.longev
              Except.ok (some
                { blocks := ((lefts.zip poscounts).filter
                    (fun b => decide (P.mintime < b.1))).map
                    (fun b => (b.1, b.1 + P.binsize, b.2)),
                  line := gl.1, larrow := gl.2.1, rarrow := gl.2.2.1,
                  x1 := gl.2.2.2.1, x2 := gl.2.2.2.2,
                  labelX := qmax (lefts.map (fun x => x + P.binsize)),
                  labelCount := f.dtm.length,
                  boxL := max (qmin f.dtm) P.mintime - P.barpad,
                  boxR := qmax f.dtm + P.barpad })
          else Except.ok none
        else Except.ok none

/-- The loop over all families: included families receive consecutive
row indices n in inclusion order; excluded families leave n unchanged;
an exception in any family's computation aborts the whole plot. -/
def occurrenceRows (P : OccParams) :
    List FamIn → ℕ → Except Unit (List (ℕ × FamOut))
  | [], _ => Except.ok []
  | f :: rest, n =>
    match familyContribution P f with
    | Except.error e => Except.error e
    | Except.ok none => occurrenceRows P rest n
    | Except.ok (some o) =>
      match occurrenceRows P rest (n + 1) with
      | Except.error e => Except.error e
      | Except.ok l => Except.ok ((n, o) :: l)

/-! ## Theorems -/

/-- C1 counterexample: for window = [100, 200], padding = 1,
start = 100, length = 100, the condition of spec case E
(min ≥ start and max ≤ end) holds, but generateLines returns
case A's row (no arrows, x1 = 100, x2 = 200) rather than case E's
prescribed row (both arrows, x1 = 99, x2 = 201). -/
theorem C1_counterexample :
    specCaseE 100 200 100 100 ∧
    generateLines 100 200 1 100 100 = (true, false, false, 100, 200) ∧
    generateLines 100 200 1 100 100 ≠ (true, true, true, 99, 201) := by
  refine ⟨⟨by norm_num, by norm_num⟩, ?_, ?_⟩ <;> norm_num [generateLines]

/-- C1 (amended): generateLines evaluates the decision table sequentially
(A, then B, C, D, E, else F) and returns the row of the first applicable
case; hence whenever exactly one spec case applies the output is exactly
that case's row, and the spec's two concrete scenarios hold as stated. -/
theorem C1_clip_decision_table (mn mx p s l : ℚ)
    (hw : mn ≤ mx) (hp : 0 ≤ p) (hl : 0 ≤ l) :
    (specCaseA mn mx s l →
      generateLines mn mx p s l = (true, false, false, s, s + l)) ∧
    (¬ specCaseA mn mx s l → specCaseB mn mx s l →
      (generateLines mn mx p s l).1 = false) ∧
    (specCaseC mn mx s l →
      generateLines mn mx p s l = (true, false, true, s, mx + p)) ∧
    (¬ specCaseA mn mx s l → specCaseD mn mx s l →
      generateLines mn mx p s l = (true, true, false, mn - p, s + l)) ∧
    (¬ specCaseA mn mx s l → ¬ specCaseB mn mx s l → ¬ specCaseC mn mx s l →
      ¬ specCaseD mn mx s l → specCaseE mn mx s l →
      generateLines mn mx p s l = (true, true, true, mn - p, mx + p)) ∧
    (specCaseF mn mx s l → (generateLines mn mx p s l).1 = false) ∧
    generateLines 100 200 1 100 50 = (true, false, false, 100, 150) ∧
    generateLines 100 200 1 50 200 = (true, true, true, 99, 201) := by
  simp only [specCaseA, specCaseB, specCaseC, specCaseD, specCaseE, specCaseF]
  refine ⟨?_, ?_, ?_, ?_, ?_, ?_, by norm_num [generateLines],
    by norm_num [generateLines]⟩
  · rintro ⟨h1, h2⟩
    unfold generateLines
    rw [if_pos ⟨h1, h2⟩]
  · intro hA hB
    unfold generateLines
    rw [if_neg hA, if_pos hB]
  · rintro ⟨h1, h2, h3⟩
    unfold generateLines
    rw [if_neg (fun h => absurd h.2 (not_le.mpr h3)),
      if_neg (fun h => absurd h.2 (not_le.mpr h2)), if_pos ⟨h1, le_of_lt h3⟩]
  · rintro hA ⟨h1, h2, h3⟩
    have hms : ¬ mn ≤ s := fun h => hA ⟨h, h2⟩
    unfold generateLines
    rw [if_neg hA, if_neg (fun h => hms h.1), if_neg (fun h => hms h.1),
      if_pos ⟨h1, h2, h3⟩]
  · rintro hA hB hC hD ⟨h1, h2⟩
    have h3 : ¬ (mn ≤ s ∧ mx ≤ s + l) := by
      rintro ⟨hms, hxe⟩
      rcases le_or_lt (s + l) mx with hx | hx
      · exact hA ⟨hms, hx⟩
      · rcases lt_or_le s mx with hs | hs
        · exact hC ⟨hms, hs, hx⟩
        · exact hB ⟨hms, hs⟩
    unfold generateLines
    rw [if_neg hA, if_neg hB, if_neg h3, if_neg hD, if_pos ⟨h1, h2⟩]
  · rintro ⟨hA, hB, hC, hD, hE⟩
    have h3 : ¬ (mn ≤ s ∧ mx ≤ s + l) := by
      rintro ⟨hms, hxe⟩
      rcases le_or_lt (s + l) mx with hx | hx
      · exact hA ⟨hms, hx⟩
      · rcases lt_or_le s mx with hs | hs
        · exact hC ⟨hms, hs, hx⟩
        · exact hB ⟨hms, hs⟩
    unfold generateLines
    rw [if_neg hA, if_neg hB, if_neg h3, if_neg hD, if_neg hE]

/-- C1 witness: the amended decision-table theorem applied to
window = [100, 200], padding = 1, start = 100, length = 50
(the spec's concrete scenario 1). -/
theorem C1_witness :
    (100 : ℚ) ≤ 200 ∧ (0 : ℚ) ≤ 1 ∧ (0 : ℚ) ≤ 50 ∧
    generateLines 100 200 1 100 50 = (true, false, false, 100, 150) := by
  refine ⟨by norm_num, by norm_num, by norm_num, ?_⟩
  exact (C1_clip_decision_table 100 200 1 100 50 (by norm_num) (by norm_num)
    (by norm_num)).2.2.2.2.2.2.1

/-- C2 counterexample: with window = [0, 0] (min ≤ max), padding 0, and the
zero-length interval starting at 0 (a boundary-equal input with
min = start and max = end), the conditions of spec cases A, B, D and E all
hold simultaneously, so the decision table's cases are not mutually
exclusive and it is false that exactly one case fires. -/
theorem C2_counterexample :
    (0 : ℚ) ≤ 0 ∧ specCaseA 0 0 0 0 ∧ specCaseB 0 0 0 0 ∧
    specCaseD 0 0 0 0 ∧ specCaseE 0 0 0 0 := by
  norm_num [specCaseA, specCaseB, specCaseD, specCaseE]

/-- C2 (amended): the six decision-table conditions are not mutually
exclusive (they overlap at boundary equalities, see the counterexample);
what does hold is that at least one case always applies, and whenever the
code draws (add_line = true) both clipped endpoints lie within
[min - padding, max + padding]. -/
theorem C2_clip_totality_bounds (mn mx p s l : ℚ)
    (hw : mn ≤ mx) (hp : 0 ≤ p) (hl : 0 ≤ l) :
    (specCaseA mn mx s l ∨ specCaseB mn mx s l ∨ specCaseC mn mx s l ∨
      specCaseD mn mx s l ∨ specCaseE mn mx s l ∨ specCaseF mn mx s l) ∧
    ((generateLines mn mx p s l).1 = true →
      mn - p ≤ (generateLines mn mx p s l).2.2.2.1 ∧
      (generateLines mn mx p s l).2.2.2.1 ≤ mx + p ∧
      mn - p ≤ (generateLines mn mx p s l).2.2.2.2 ∧
      (generateLines mn mx p s l).2.2.2.2 ≤ mx + p) := by
  constructor
  · simp only [specCaseF]
    tauto
  · unfold generateLines
    split_ifs with h1 h2 h3 h4 h5 <;> intro hd
    · refine ⟨?_, ?_, ?_, ?_⟩
      · show mn - p ≤ s
        linarith [h1.1]
      · show s ≤ mx + p
        linarith [h1.2]
      · show mn - p ≤ s + l
        linarith [h1.1]
      · show s + l ≤ mx + p
        linarith [h1.2]
    · simp at hd
    · have hsx : s < mx := not_le.mp (fun hc => h2 ⟨h3.1, hc⟩)
      refine ⟨?_, ?_, ?_, ?_⟩
      · show mn - p ≤ s
        linarith [h3.1]
      · show s ≤ mx + p
        linarith
      · show mn - p ≤ mx + p
        linarith
      · show mx + p ≤ mx + p
        linarith
    · refine ⟨?_, ?_, ?_, ?_⟩
      · show mn - p ≤ mn - p
        linarith
      · show mn - p ≤ mx + p
        linarith
      · show mn - p ≤ s + l
        linarith [h4.2.2]
      · show s + l ≤ mx + p
        linarith [h4.2.1]
    · refine ⟨?_, ?_, ?_, ?_⟩
      · show mn - p ≤ mn - p
        linarith
      · show mn - p ≤ mx + p
        linarith
      · show mn - p ≤ mx + p
        linarith
      · show mx + p ≤ mx + p
        linarith
    · simp at hd

/-- C2 witness: the totality-and-bounds theorem applied to
window = [100, 200], padding 1, start 100, length 50. -/
theorem C2_witness :
    (100 : ℚ) ≤ 200 ∧ (0 : ℚ) ≤ 1 ∧ (0 : ℚ) ≤ 50 ∧
    ((specCaseA 100 200 100 50 ∨ specCaseB 100 200 100 50 ∨
      specCaseC 100 200 100 50 ∨ specCaseD 100 200 100 50 ∨
      specCaseE 100 200 100 50 ∨ specCaseF 100 200 100 50) ∧
    ((generateLines 100 200 1 100 50).1 = true →
      (100 : ℚ) - 1 ≤ (generateLines 100 200 1 100 50).2.2.2.1 ∧
      (generateLines 100 200 1 100 50).2.2.2.1 ≤ 200 + 1 ∧
      (100 : ℚ) - 1 ≤ (generateLines 100 200 1 100 50).2.2.2.2 ∧
      (generateLines 100 200 1 100 50).2.2.2.2 ≤ 200 + 1)) :=
  ⟨by norm_num, by norm_num, by norm_num,
    C2_clip_totality_bounds 100 200 1 100 50 (by norm_num) (by norm_num)
      (by norm_num)⟩

/-- C10: whenever generateLines returns add_line = false it returns all
the initial defaults: add_larrow = add_rarrow = false and x1 = x2 = 0.
The only paths that leave add_line false are the explicit second branch
(family starts after mintime but first event past maxtime), which sets
nothing else, and the implicit fallthrough, which leaves every output at
its initial value. -/
theorem C10_no_draw_defaults (mn mx p s l : ℚ)
    (h : (generateLines mn mx p s l).1 = false) :
    generateLines mn mx p s l = (false, false, false, 0, 0) := by
  unfold generateLines at h ⊢
  split_ifs at h ⊢ <;> first | rfl | (norm_num at h)

/-- C10 witness: the no-draw-defaults theorem applied at
window = [0, 0], padding 0, start 1, length 0 (the family starts after
maxtime, so nothing is drawn). -/
theorem C10_witness :
    (generateLines 0 0 0 1 0).1 = false ∧
    generateLines 0 0 0 1 0 = (false, false, false, 0, 0) := by
  have h : (generateLines 0 0 0 1 0).1 = false := by norm_num [generateLines]
  exact ⟨h, C10_no_draw_defaults 0 0 0 1 0 h⟩

lemma le_logb_of_pow_le (a b : ℕ) (x : ℝ) (hb : 0 < (b : ℝ)) (hx : 0 < x)
    (h : (10 : ℝ) ^ a ≤ x ^ b) : (a : ℝ) / b ≤ Real.logb 10 x := by
  rw [Real.logb, div_le_div_iff hb (Real.log_pos (by norm_num))]
  have h2 := Real.log_le_log (by positivity) h
  rw [Real.log_pow, Real.log_pow] at h2
  calc (a : ℝ) * Real.log 10 ≤ (b : ℝ) * Real.log x := h2
    _ = Real.log x * b := mul_comm _ _

lemma logb_lt_of_pow_lt (a b : ℕ) (x : ℝ) (hb : 0 < (b : ℝ)) (hx : 0 < x)
    (h : x ^ b < (10 : ℝ) ^ a) : Real.logb 10 x < (a : ℝ) / b := by
  rw [Real.logb, div_lt_div_iff (Real.log_pos (by norm_num)) hb]
  have h2 := Real.log_lt_log (by positivity) h
  rw [Real.log_pow, Real.log_pow] at h2
  calc Real.log x * b = (b : ℝ) * Real.log x := mul_comm _ _
    _ < (a : ℝ) * Real.log 10 := h2

lemma rateIndex_day_two : rateIndex 1 2 = 25 := by
  have hl := le_logb_of_pow_le 25 85 2 (by norm_num) (by norm_num)
    (by norm_num)
  have hu := logb_lt_of_pow_lt 26 85 2 (by norm_num) (by norm_num)
    (by norm_num)
  push_cast at hl hu
  unfold rateIndex
  rw [if_pos (le_refl (1 : ℚ))]
  have hc : ((2 : ℕ) : ℝ) = 2 := by norm_num
  rw [hc, min_eq_right (by linarith), Int.floor_eq_iff]
  constructor
  · push_cast
    linarith
  · push_cast
    linarith

lemma rateIndex_day_fifty : rateIndex 1 50 = 144 := by
  have hl := le_logb_of_pow_le 144 85 50 (by norm_num) (by norm_num)
    (by norm_num)
  have hu := logb_lt_of_pow_lt 145 85 50 (by norm_num) (by norm_num)
    (by norm_num)
  push_cast at hl hu
  unfold rateIndex
  rw [if_pos (le_refl (1 : ℚ))]
  have hc : ((50 : ℕ) : ℝ) = 50 := by norm_num
  rw [hc, min_eq_right (by linarith), Int.floor_eq_iff]
  constructor
  · push_cast
    linarith
  · push_cast
    linarith

/-- C7 counterexample: for day-long bins (width 1) and bin counts 2 and
50, the computed colour indices are 25 and 144, not the 59 and 146 stated
in the claim (and they are not within rounding distance of them). -/
theorem C7_counterexample :
    rateIndex 1 2 = 25 ∧ rateIndex 1 50 = 144 ∧
    rateIndex 1 2 ≠ 59 ∧ rateIndex 1 50 ≠ 146 := by
  refine ⟨rateIndex_day_two, rateIndex_day_fifty, ?_, ?_⟩
  · rw [rateIndex_day_two]
    norm_num
  · rw [rateIndex_day_fifty]
    norm_num

/-- C7 (amended): for every nonempty bin (count ≥ 1) the code's colour
index equals the spec's clamp(255·log10(count)/divisor, 0, 255) floored,
with divisor 3 for day-or-longer bins and 2 for sub-day bins (the lower
clamp is vacuous because log10(count) ≥ 0); for bin width 1 day and bin
counts [2, 50] the indices are 25 and 144, not 59 and 146. -/
theorem C7_rate_colour_index (w : ℚ) (c : ℕ) (hc : 1 ≤ c) :
    rateIndex w c = specRateIndex w c ∧
    rateIndices 1 [2, 50] = [25, 144] := by
  constructor
  · have hlb : 0 ≤ Real.logb 10 (c : ℝ) :=
      Real.logb_nonneg (by norm_num) (by exact_mod_cast hc)
    have hd : (0 : ℝ) < (if 1 ≤ w then (3 : ℝ) else 2) := by
      split_ifs <;> norm_num
    have h0 : 0 ≤ 255 * (Real.logb 10 (c : ℝ) /
        (if 1 ≤ w then (3 : ℝ) else 2)) :=
      mul_nonneg (by norm_num) (div_nonneg hlb (le_of_lt hd))
    unfold rateIndex specRateIndex
    rw [mul_div_assoc, max_eq_right (le_min (by norm_num) h0)]
  · unfold rateIndices
    have hf : ([2, 50] : List ℕ).filter (fun c => decide (0 < c)) =
        [2, 50] := by decide
    rw [hf]
    simp only [List.map_cons, List.map_nil, rateIndex_day_two,
      rateIndex_day_fifty]

/-- C7 witness: the amended colour-index theorem applied at bin width 1
and count 2. -/
theorem C7_witness :
    1 ≤ 2 ∧ rateIndex 1 2 = specRateIndex 1 2 ∧
    rateIndices 1 [2, 50] = [25, 144] :=
  ⟨by norm_num, (C7_rate_colour_index 1 2 (by norm_num)).1,
    (C7_rate_colour_index 1 2 (by norm_num)).2⟩

lemma foldl_upd_apply (g1 g2 : CEntry → ℕ) :
    ∀ (es : List CEntry) (M : Mat) (x y : ℕ),
      (es.foldl (fun A e => upd A (g1 e) (g2 e) e.ccc) M) x y =
        match es.reverse.find? (fun e => decide (x = g1 e ∧ y = g2 e)) with
        | some e => e.ccc
        | none => M x y := by
  intro es
  induction es with
  | nil => intro M x y; rfl
  | cons e es ih =>
    intro M x y
    rw [List.foldl_cons, ih, List.reverse_cons, List.find?_append]
    cases hf : List.find? (fun f => decide (x = g1 f ∧ y = g2 f)) es.reverse with
    | some f => rfl
    | none =>
      simp only [Option.none_or]
      by_cases hp : x = g1 e ∧ y = g2 e
      · simp [List.find?, hp, upd]
      · simp [List.find?, hp, upd]

lemma find?_congr_pred {p q : CEntry → Bool} (h : ∀ e, p e = q e) :
    ∀ l : List CEntry, l.find? p = l.find? q := by
  intro l
  induction l with
  | nil => rfl
  | cons e es ih => rw [List.find?_cons, List.find?_cons, h e, ih]

lemma idxIn_inj (idf : List ℕ) {a b : ℕ} (ha : a ∈ idf) (hb : b ∈ idf)
    (h : idxIn idf a = idxIn idf b) : a = b := by
  unfold idxIn at h
  have h1 := List.indexOf_get (List.indexOf_lt_length.mpr ha)
  have h2 := List.indexOf_get (List.indexOf_lt_length.mpr hb)
  rw [← h1, ← h2]
  congr 1
  exact Fin.ext h

lemma storedC_apply (idf : List ℕ) (ct : List CEntry) (x y : ℕ) :
    storedC idf ct x y =
      match (famEntries idf ct).reverse.find?
          (fun e => decide (x = idxIn idf e.id2 ∧ y = idxIn idf e.id1)) with
      | some e => e.ccc
      | none =>
        match (famEntries idf ct).reverse.find?
            (fun e => decide (x = idxIn idf e.id1 ∧ y = idxIn idf e.id2)) with
        | some e => e.ccc
        | none => eyeM idf.length x y := by
  unfold storedC scatter1 scatter2
  rw [foldl_upd_apply (fun e => idxIn idf e.id2) (fun e => idxIn idf e.id1)]
  cases h2 : (famEntries idf ct).reverse.find?
      (fun e => decide (x = idxIn idf e.id2 ∧ y = idxIn idf e.id1)) with
  | some e => rfl
  | none =>
    rw [foldl_upd_apply (fun e => idxIn idf e.id1) (fun e => idxIn idf e.id2)]

lemma eyeM_symm (n x y : ℕ) : eyeM n x y = eyeM n y x := by
  unfold eyeM
  by_cases h : x = y
  · subst h; rfl
  · rw [if_neg (fun hc => h hc.1), if_neg (fun hc => h hc.1.symm)]

lemma distinctPair_symm : Symmetric distinctPair := by
  rintro e f ⟨r1, r2⟩
  exact ⟨fun h => r1 ⟨h.1.symm, h.2.symm⟩, fun h => r2 ⟨h.2.symm, h.1.symm⟩⟩

lemma famEntries_id2_mem (idf : List ℕ) (ct : List CEntry) :
    ∀ e ∈ famEntries idf ct, e.id2 ∈ idf := by
  intro e he
  have h := (List.mem_filter.mp he).2
  simpa using h

lemma storedC_symm (idf : List ℕ) (ct : List CEntry)
    (hin : ∀ e ∈ famEntries idf ct, e.id1 ∈ idf)
    (hne : ∀ e ∈ famEntries idf ct, e.id1 ≠ e.id2)
    (hpair : (famEntries idf ct).Pairwise distinctPair)
    (x y : ℕ) : storedC idf ct x y = storedC idf ct y x := by
  have hid2 := famEntries_id2_mem idf ct
  have e1 : ∀ e : CEntry,
      (decide (y = idxIn idf e.id2 ∧ x = idxIn idf e.id1)) =
      (decide (x = idxIn idf e.id1 ∧ y = idxIn idf e.id2)) :=
    fun e => decide_eq_decide.mpr and_comm
  have e2 : ∀ e : CEntry,
      (decide (y = idxIn idf e.id1 ∧ x = idxIn idf e.id2)) =
      (decide (x = idxIn idf e.id2 ∧ y = idxIn idf e.id1)) :=
    fun e => decide_eq_decide.mpr and_comm
  rw [storedC_apply idf ct x y, storedC_apply idf ct y x,
    find?_congr_pred e1, find?_congr_pred e2, eyeM_symm idf.length x y]
  cases hA : (famEntries idf ct).reverse.find?
      (fun e => decide (x = idxIn idf e.id2 ∧ y = idxIn idf e.id1)) with
  | none =>
    cases hB : (famEntries idf ct).reverse.find?
        (fun e => decide (x = idxIn idf e.id1 ∧ y = idxIn idf e.id2)) with
    | none => rfl
    | some f => rfl
  | some e =>
    cases hB : (famEntries idf ct).reverse.find?
        (fun e => decide (x = idxIn idf e.id1 ∧ y = idxIn idf e.id2)) with
    | none => rfl
    | some f =>
      have hemem := List.mem_reverse.mp (List.mem_of_find?_eq_some hA)
      have hfmem := List.mem_reverse.mp (List.mem_of_find?_eq_some hB)
      have hep0 := List.find?_some hA
      have hfp0 := List.find?_some hB
      have hep := of_decide_eq_true hep0
      have hfp := of_decide_eq_true hfp0
      exfalso
      by_cases hef : e = f
      · subst hef
        exact hne e hemem (idxIn_inj idf (hin e hemem) (hid2 e hemem)
          (hfp.1.symm.trans hep.1))
      · have hR := (List.Pairwise.forall distinctPair_symm hpair)
          hemem hfmem hef
        exact hR.2 ⟨idxIn_inj idf (hin e hemem) (hid2 f hfmem)
            (hep.2.symm.trans hfp.2),
          idxIn_inj idf (hid2 e hemem) (hin f hfmem)
            (hep.1.symm.trans hfp.1)⟩

lemma storedC_diag (idf : List ℕ) (ct : List CEntry)
    (hin : ∀ e ∈ famEntries idf ct, e.id1 ∈ idf)
    (hne : ∀ e ∈ famEntries idf ct, e.id1 ≠ e.id2)
    (i : ℕ) (hi : i < idf.length) : storedC idf ct i i = 1 := by
  have hid2 := famEntries_id2_mem idf ct
  have hA : (famEntries idf ct).reverse.find?
      (fun e => decide (i = idxIn idf e.id2 ∧ i = idxIn idf e.id1)) = none :=
    List.find?_eq_none.mpr (fun e he => by
      simp only [decide_eq_true_eq]
      rintro ⟨h1, h2⟩
      exact hne e (List.mem_reverse.mp he) (idxIn_inj idf
        (hin e (List.mem_reverse.mp he)) (hid2 e (List.mem_reverse.mp he))
        (h2.symm.trans h1)))
  have hB : (famEntries idf ct).reverse.find?
      (fun e => decide (i = idxIn idf e.id1 ∧ i = idxIn idf e.id2)) = none :=
    List.find?_eq_none.mpr (fun e he => by
      simp only [decide_eq_true_eq]
      rintro ⟨h1, h2⟩
      exact hne e (List.mem_reverse.mp he) (idxIn_inj idf
        (hin e (List.mem_reverse.mp he)) (hid2 e (List.mem_reverse.mp he))
        (h1.symm.trans h2)))
  rw [storedC_apply, hA, hB]
  simp [eyeM, hi]

lemma pairList_mem (n : ℕ) (p : ℕ × ℕ) :
    p ∈ pairList n ↔ p.1 < p.2 ∧ p.2 < n := by
  cases p with
  | mk a b =>
    simp only [pairList, List.mem_flatMap, List.mem_range, List.mem_map,
      List.mem_range'_1, Prod.mk.injEq]
    constructor
    · rintro ⟨i, hi, j, ⟨hj1, hj2⟩, rfl, rfl⟩
      constructor <;> omega
    · rintro ⟨h1, h2⟩
      exact ⟨a, by omega, b, ⟨by omega, by omega⟩, rfl, rfl⟩

lemma pairList_nodup (n : ℕ) : (pairList n).Nodup := by
  unfold pairList
  rw [List.nodup_flatMap]
  constructor
  · intro i _
    exact List.Nodup.map (fun a b h => by simpa using h)
      (List.nodup_range' _ _)
  · refine (List.pairwise_lt_range (n - 1)).imp ?_
    intro i j hij p hp1 hp2
    simp only [List.mem_map, List.mem_range'_1] at hp1 hp2
    obtain ⟨a, _, rfl⟩ := hp1
    obtain ⟨b, _, hb⟩ := hp2
    exact absurd (congrArg Prod.fst hb) (Nat.ne_of_lt' hij)

lemma sum_map_one (l : List ℕ) : (l.map (fun _ => 1)).sum = l.length := by
  induction l with
  | nil => rfl
  | cons x xs ih => simp [ih, Nat.add_comm]

lemma range_rev_sum (m : ℕ) :
    ((List.range m).map (fun i => m - i)).sum * 2 = m * (m + 1) := by
  induction m with
  | zero => rfl
  | succ k ih =>
    rw [List.range_succ, List.map_append]
    simp only [List.map_cons, List.map_nil, List.sum_append, List.sum_cons,
      List.sum_nil]
    have hcongr : (List.range k).map (fun i => k + 1 - i) =
        (List.range k).map (fun i => (k - i) + 1) := by
      apply List.map_congr_left
      intro a ha
      have := List.mem_range.mp ha
      omega
    rw [hcongr, List.sum_map_add, sum_map_one, List.length_range]
    have h1 : k + 1 - k = 1 := by omega
    rw [h1]
    nlinarith [ih]

lemma pairList_length (n : ℕ) : (pairList n).length = n.choose 2 := by
  cases n with
  | zero => rfl
  | succ m =>
    unfold pairList
    rw [List.length_flatMap]
    have h1 : (List.range (m + 1 - 1)).map (List.length ∘ fun i =>
        (List.range' (i + 1) (m + 1 - 1 - i)).map (fun j => (i, j))) =
        (List.range m).map (fun i => m - i) := by
      have hm : m + 1 - 1 = m := rfl
      rw [hm]
      apply List.map_congr_left
      intro a _
      simp [List.length_range']
    rw [h1, Nat.choose_two_right]
    have h2 := range_rev_sum m
    have h3 : (m + 1) * (m + 1 - 1) = m * (m + 1) := by
      have : m + 1 - 1 = m := rfl
      rw [this, Nat.mul_comm]
    rw [h3]
    omega

lemma symUpd_apply (M : Mat) (i j : ℕ) (v : ℚ) (x y : ℕ) :
    symUpd M i j v x y =
      if (x = j ∧ y = i) ∨ (x = i ∧ y = j) then v else M x y := by
  unfold symUpd upd
  by_cases h1 : x = j ∧ y = i
  · rw [if_pos h1, if_pos (Or.inl h1)]
  · rw [if_neg h1]
    by_cases h2 : x = i ∧ y = j
    · rw [if_pos h2, if_pos (Or.inr h2)]
    · rw [if_neg h2, if_neg (fun hc => hc.elim h1 h2)]

lemma fillPairs_spec {E : Type} (cmp : ℕ → ℕ → Except E ℚ) :
    ∀ (L : List (ℕ × ℕ)) (M M2 : Mat) (calls : List (ℕ × ℕ)),
      (∀ p ∈ L, p.1 < p.2) → L.Nodup →
      fillPairs cmp L M = Except.ok (M2, calls) →
      calls = L.filter (fun p => decide (M p.1 p.2 = 0)) ∧
      (∀ a, M2 a a = M a a) ∧
      (∀ a b, a < b →
        (((a, b) ∈ L ∧ M a b = 0) →
          ∃ c, cmp a b = Except.ok c ∧ M2 a b = c ∧ M2 b a = c) ∧
        (¬ ((a, b) ∈ L ∧ M a b = 0) → M2 a b = M a b ∧ M2 b a = M b a)) := by
  intro L
  induction L with
  | nil =>
    intro M M2 calls hlt hnd heq
    simp only [fillPairs, Except.ok.injEq, Prod.mk.injEq] at heq
    obtain ⟨hM, hcalls⟩ := heq
    subst hM
    subst hcalls
    refine ⟨by simp, fun a => rfl, ?_⟩
    intro a b _
    constructor
    · rintro ⟨hmem, _⟩
      exact absurd hmem (List.not_mem_nil _)
    · intro _
      exact ⟨rfl, rfl⟩
  | cons hd rest ih =>
    intro M M2 calls hlt hnd heq
    obtain ⟨i, j⟩ := hd
    have hij : i < j := hlt (i, j) (List.mem_cons_self _ _)
    have hrest_lt : ∀ p ∈ rest, p.1 < p.2 :=
      fun p hp => hlt p (List.mem_cons_of_mem _ hp)
    have hnotin : (i, j) ∉ rest := (List.nodup_cons.mp hnd).1
    have hnd2 : rest.Nodup := (List.nodup_cons.mp hnd).2
    simp only [fillPairs] at heq
    by_cases h0 : M i j = 0
    · rw [if_pos h0] at heq
      rcases hc : cmp i j with e | c
      · rw [hc] at heq
        simp only [] at heq
        exact absurd heq (by simp)
      · rw [hc] at heq
        simp only [] at heq
        rcases hrec : fillPairs cmp rest (symUpd M i j c) with e | pr
        · rw [hrec] at heq
          simp only [] at heq
          exact absurd heq (by simp)
        obtain ⟨M3, calls3⟩ := pr
        rw [hrec] at heq
        simp only [Except.ok.injEq, Prod.mk.injEq] at heq
        obtain ⟨hM, hcalls⟩ := heq
        subst hM
        subst hcalls
        obtain ⟨ihcalls, ihdiag, ihcell⟩ :=
          ih (symUpd M i j c) M3 calls3 hrest_lt hnd2 hrec
        have hNrest : ∀ p ∈ rest, symUpd M i j c p.1 p.2 = M p.1 p.2 := by
          intro p hp
          rw [symUpd_apply]
          refine if_neg ?_
          rintro (⟨ha, hb⟩ | ⟨ha, hb⟩)
          · have := hrest_lt p hp
            omega
          · apply hnotin
            have hpp : p = (i, j) := Prod.ext ha hb
            rw [← hpp]
            exact hp
        refine ⟨?_, ?_, ?_⟩
        · rw [List.filter_cons]
          have hdec : decide (M i j = 0) = true := decide_eq_true h0
          rw [if_pos hdec, ihcalls]
          congr 1
          apply List.filter_congr
          intro p hp
          rw [hNrest p hp]
        · intro a
          rw [ihdiag a, symUpd_apply]
          refine if_neg ?_
          rintro (⟨ha, hb⟩ | ⟨ha, hb⟩) <;> omega
        · intro a b hab
          by_cases hab_ij : (a, b) = (i, j)
          · have ha : a = i := congrArg Prod.fst hab_ij
            have hb : b = j := congrArg Prod.snd hab_ij
            subst ha
            subst hb
            constructor
            · intro _
              refine ⟨c, hc, ?_, ?_⟩
              · have := (ihcell a b hab).2 (fun hcon => hnotin hcon.1)
                rw [this.1, symUpd_apply, if_pos (Or.inr ⟨rfl, rfl⟩)]
              · have := (ihcell a b hab).2 (fun hcon => hnotin hcon.1)
                rw [this.2, symUpd_apply, if_pos (Or.inl ⟨rfl, rfl⟩)]
            · intro hn
              exact absurd ⟨List.mem_cons_self _ _, h0⟩ hn
          · have hNab : symUpd M i j c a b = M a b := by
              rw [symUpd_apply]
              refine if_neg ?_
              rintro (⟨ha, hb⟩ | ⟨ha, hb⟩)
              · omega
              · exact hab_ij (Prod.ext ha hb)
            have hNba : symUpd M i j c b a = M b a := by
              rw [symUpd_apply]
              refine if_neg ?_
              rintro (⟨ha, hb⟩ | ⟨ha, hb⟩)
              · exact hab_ij (Prod.ext hb ha)
              · omega
            constructor
            · rintro ⟨hmem, h0ab⟩
              have hmem2 : (a, b) ∈ rest :=
                (List.mem_cons.mp hmem).resolve_left hab_ij
              obtain ⟨c2, hc2, h1, h2⟩ :=
                (ihcell a b hab).1 ⟨hmem2, by rw [hNab]; exact h0ab⟩
              exact ⟨c2, hc2, h1, h2⟩
            · intro hn
              have := (ihcell a b hab).2 (fun hcon => hn
                ⟨List.mem_cons_of_mem _ hcon.1, by rw [← hNab]; exact hcon.2⟩)
              rw [hNab] at this
              rw [hNba] at this
              exact this
    · rw [if_neg h0] at heq
      obtain ⟨ihcalls, ihdiag, ihcell⟩ := ih M M2 calls hrest_lt hnd2 heq
      refine ⟨?_, ihdiag, ?_⟩
      · rw [List.filter_cons]
        have hdec : decide (M i j = 0) = false := decide_eq_false h0
        rw [hdec]
        simp only [Bool.false_eq_true, if_false]
        exact ihcalls
      · intro a b hab
        by_cases hab_ij : (a, b) = (i, j)
        · have ha : a = i := congrArg Prod.fst hab_ij
          have hb : b = j := congrArg Prod.snd hab_ij
          subst ha
          subst hb
          constructor
          · rintro ⟨_, h0ab⟩
            exact absurd h0ab h0
          · intro _
            exact (ihcell a b hab).2 (fun hcon => hnotin hcon.1)
        · constructor
          · rintro ⟨hmem, h0ab⟩
            exact (ihcell a b hab).1
              ⟨(List.mem_cons.mp hmem).resolve_left hab_ij, h0ab⟩
          · intro hn
            exact (ihcell a b hab).2
              (fun hcon => hn ⟨List.mem_cons_of_mem _ hcon.1, hcon.2⟩)

lemma pairList_lt (n : ℕ) : ∀ p ∈ pairList n, p.1 < p.2 :=
  fun p hp => ((pairList_mem n p).mp hp).1

lemma fillPairs_ok_symm {E : Type} (cmp : ℕ → ℕ → Except E ℚ) (n : ℕ)
    (M M2 : Mat) (calls : List (ℕ × ℕ)) (hsym : ∀ x y, M x y = M y x)
    (hfill : fillPairs cmp (pairList n) M = Except.ok (M2, calls)) :
    ∀ x y, M2 x y = M2 y x := by
  obtain ⟨_, hdiag, hcell⟩ := fillPairs_spec cmp (pairList n) M M2 calls
    (pairList_lt n) (pairList_nodup n) hfill
  intro x y
  rcases Nat.lt_trichotomy x y with h | h | h
  · by_cases hc : (x, y) ∈ pairList n ∧ M x y = 0
    · obtain ⟨c, _, h1, h2⟩ := (hcell x y h).1 hc
      rw [h1, h2]
    · obtain ⟨h1, h2⟩ := (hcell x y h).2 hc
      rw [h1, h2, hsym]
  · subst h
    rfl
  · by_cases hc : (y, x) ∈ pairList n ∧ M y x = 0
    · obtain ⟨c, _, h1, h2⟩ := (hcell y x h).1 hc
      rw [h1, h2]
    · obtain ⟨h1, h2⟩ := (hcell y x h).2 hc
      rw [h1, h2, hsym]

lemma fillPairs_ok_preserve {E : Type} (cmp : ℕ → ℕ → Except E ℚ) (n : ℕ)
    (M M2 : Mat) (calls : List (ℕ × ℕ)) (hsym : ∀ x y, M x y = M y x)
    (hfill : fillPairs cmp (pairList n) M = Except.ok (M2, calls)) :
    ∀ x y, M x y ≠ 0 → M2 x y = M x y := by
  obtain ⟨_, hdiag, hcell⟩ := fillPairs_spec cmp (pairList n) M M2 calls
    (pairList_lt n) (pairList_nodup n) hfill
  intro x y hne0
  rcases Nat.lt_trichotomy x y with h | h | h
  · exact ((hcell x y h).2 (fun hc => hne0 hc.2)).1
  · subst h
    exact hdiag x
  · have hyx : M y x ≠ 0 := by
      rw [hsym y x]
      exact hne0
    exact ((hcell y x h).2 (fun hc => hyx hc.2)).2

/-- C4: every completed similarity matrix is symmetric with unit
diagonal: both the Stored matrix Cind (np.eye plus the symmetric scatter
of the family's stored coefficients, chronologically reindexed) and any
Full matrix produced by the completion loop from it.  Hypotheses: every
family-relevant ctable row links two distinct events of the family, no
unordered id pair occurs in two rows (a single coefficient per unordered
pair), and the reindexing permutation maps positions below n to
positions below n. -/
theorem C4_symmetry_unit_diagonal (idf : List ℕ) (ct : List CEntry)
    (perm : ℕ → ℕ) {E : Type} (cmp : ℕ → ℕ → Except E ℚ)
    (hin : ∀ e ∈ famEntries idf ct, e.id1 ∈ idf)
    (hne : ∀ e ∈ famEntries idf ct, e.id1 ≠ e.id2)
    (hpair : (famEntries idf ct).Pairwise distinctPair)
    (hperm : ∀ i, i < idf.length → perm i < idf.length) :
    (∀ x y, permuteMat perm (storedC idf ct) x y =
      permuteMat perm (storedC idf ct) y x) ∧
    (∀ i, i < idf.length → permuteMat perm (storedC idf ct) i i = 1) ∧
    (∀ (M2 : Mat) (calls : List (ℕ × ℕ)),
      fillPairs cmp (pairList idf.length)
          (permuteMat perm (storedC idf ct)) = Except.ok (M2, calls) →
      (∀ x y, M2 x y = M2 y x) ∧ (∀ i, i < idf.length → M2 i i = 1)) := by
  refine ⟨?_, ?_, ?_⟩
  · intro x y
    exact storedC_symm idf ct hin hne hpair (perm x) (perm y)
  · intro i hi
    exact storedC_diag idf ct hin hne (perm i) (hperm i hi)
  · intro M2 calls hfill
    constructor
    · exact fillPairs_ok_symm cmp idf.length _ M2 calls
        (fun x y => storedC_symm idf ct hin hne hpair (perm x) (perm y)) hfill
    · intro i hi
      obtain ⟨_, hdiag, _⟩ := fillPairs_spec cmp (pairList idf.length) _ M2
        calls (pairList_lt idf.length) (pairList_nodup idf.length) hfill
      rw [hdiag i]
      exact storedC_diag idf ct hin hne (perm i) (hperm i hi)

lemma qNineTenths_val : qNineTenths = 9 / 10 := by
  rw [← Rat.num_div_den qNineTenths]
  norm_num [qNineTenths]

/-- C4 witness: the symmetry/diagonal theorem applied to members
[1, 2, 3] with an empty store, identity reindexing and the constant-1/2
comparator; the completion fills all three pairs. -/
theorem C4_witness :
    fillPairs cmpHalf (pairList 3)
        (permuteMat (fun i => i) (storedC [1, 2, 3] [])) =
      Except.ok (symUpd (symUpd (symUpd (permuteMat (fun i => i)
        (storedC [1, 2, 3] [])) 0 1 qHalf) 0 2 qHalf) 1 2 qHalf,
        [(0, 1), (0, 2), (1, 2)]) ∧
    (∀ x y, symUpd (symUpd (symUpd (permuteMat (fun i => i)
        (storedC [1, 2, 3] [])) 0 1 qHalf) 0 2 qHalf) 1 2 qHalf x y =
      symUpd (symUpd (symUpd (permuteMat (fun i => i)
        (storedC [1, 2, 3] [])) 0 1 qHalf) 0 2 qHalf) 1 2 qHalf y x) ∧
    (∀ i, i < 3 → symUpd (symUpd (symUpd (permuteMat (fun i => i)
        (storedC [1, 2, 3] [])) 0 1 qHalf) 0 2 qHalf) 1 2 qHalf i i = 1) := by
  have hemp : famEntries [1, 2, 3] ([] : List CEntry) = [] := rfl
  have hin : ∀ e ∈ famEntries [1, 2, 3] ([] : List CEntry),
      e.id1 ∈ [1, 2, 3] := by
    rw [hemp]
    intro e he
    exact absurd he (List.not_mem_nil _)
  have hne : ∀ e ∈ famEntries [1, 2, 3] ([] : List CEntry),
      e.id1 ≠ e.id2 := by
    rw [hemp]
    intro e he
    exact absurd he (List.not_mem_nil _)
  have hpair : (famEntries [1, 2, 3] ([] : List CEntry)).Pairwise
      distinctPair := by
    rw [hemp]
    exact List.Pairwise.nil
  have hperm : ∀ i, i < ([1, 2, 3] : List ℕ).length →
      (fun i => i) i < ([1, 2, 3] : List ℕ).length := fun i hi => hi
  have hfill : fillPairs cmpHalf (pairList 3)
      (permuteMat (fun i => i) (storedC [1, 2, 3] [])) =
      Except.ok (symUpd (symUpd (symUpd (permuteMat (fun i => i)
        (storedC [1, 2, 3] [])) 0 1 qHalf) 0 2 qHalf) 1 2 qHalf,
        [(0, 1), (0, 2), (1, 2)]) := rfl
  have h := C4_symmetry_unit_diagonal [1, 2, 3] [] (fun i => i) cmpHalf
    hin hne hpair hperm
  exact ⟨hfill, (h.2.2 _ _ hfill).1, (h.2.2 _ _ hfill).2⟩

/-- C3 (amended): the completion loop invokes the comparator exactly
once for each upper-triangle pair whose Stored-matrix cell is zero and
never for a pair with a nonzero cell: the instrumented call list is
exactly the zero-cell sublist of the visited pairs, has no duplicates,
and its length is C(n,2) - k where k counts the pairs with nonzero
stored value.  When every stored coefficient is nonzero this is the
claim's count; a stored pair whose coefficient is exactly 0 is
indistinguishable from an absent pair (zero-as-missing sentinel) and is
recompared, see the counterexample. -/
theorem C3_comparator_call_count (idf : List ℕ) (ct : List CEntry)
    (perm : ℕ → ℕ) {E : Type} (cmp : ℕ → ℕ → Except E ℚ)
    (M2 : Mat) (calls : List (ℕ × ℕ))
    (hfill : fillPairs cmp (pairList idf.length)
      (permuteMat perm (storedC idf ct)) = Except.ok (M2, calls)) :
    calls = (pairList idf.length).filter
      (fun p => decide (permuteMat perm (storedC idf ct) p.1 p.2 = 0)) ∧
    calls.Nodup ∧
    calls.length + ((pairList idf.length).filter (fun p =>
      decide (¬ permuteMat perm (storedC idf ct) p.1 p.2 = 0))).length =
      idf.length.choose 2 := by
  obtain ⟨hcalls, _, _⟩ := fillPairs_spec cmp (pairList idf.length) _ M2 calls
    (pairList_lt idf.length) (pairList_nodup idf.length) hfill
  refine ⟨hcalls, ?_, ?_⟩
  · rw [hcalls]
    exact (pairList_nodup idf.length).filter _
  · rw [hcalls, ← List.countP_eq_length_filter, ← List.countP_eq_length_filter]
    have h2 : (fun (p : ℕ × ℕ) =>
        decide (¬ permuteMat perm (storedC idf ct) p.1 p.2 = 0)) =
        (fun (p : ℕ × ℕ) =>
          decide (¬ (decide (permuteMat perm (storedC idf ct) p.1 p.2 = 0)
            = true))) :=
      funext fun p => decide_eq_decide.mpr (by simp)
    rw [h2, ← List.length_eq_countP_add_countP, pairList_length]

/-- C3 counterexample: members [1, 2] and a store containing its single
unordered pair (1, 2) with coefficient 0 (a legal similarity value, so
k = 1 of the C(2,2) = 1 pairs is present and the claim prescribes 0
comparator invocations, none for (1, 2)); the loop nevertheless invokes
the comparator exactly once, for exactly that stored pair. -/
theorem C3_counterexample :
    (famEntries [1, 2] zeroCt).length = 1 ∧
    Nat.choose 2 2 = 1 ∧
    (fillPairs cmpHalf (pairList 2)
      (permuteMat (fun i => i) (storedC [1, 2] zeroCt))).map (fun r => r.2) =
      Except.ok [(0, 1)] :=
  ⟨rfl, rfl, rfl⟩

/-- C3 witness: the call-count theorem applied to the concrete scenario
members [1, 2, 3], store {(1,2) = 9/10}: the comparator is invoked
exactly once each for index pairs (0,2) and (1,2) (id pairs (1,3) and
(2,3)) and never for (0,1) (id pair (1,2)). -/
theorem C3_witness :
    qNineTenths = 9 / 10 ∧
    famEntries [1, 2, 3] scenCt = scenCt ∧
    fillPairs cmpHalf (pairList 3) cindScen =
      Except.ok (fullScen, [(0, 2), (1, 2)]) ∧
    [(0, 2), (1, 2)] = (pairList 3).filter
      (fun p => decide (cindScen p.1 p.2 = 0)) ∧
    ([(0, 2), (1, 2)] : List (ℕ × ℕ)).length + ((pairList 3).filter
      (fun p => decide (¬ cindScen p.1 p.2 = 0))).length =
      Nat.choose 3 2 := by
  have hfill : fillPairs cmpHalf (pairList 3) cindScen =
      Except.ok (fullScen, [(0, 2), (1, 2)]) := rfl
  obtain ⟨hcalls, _, hcount⟩ := C3_comparator_call_count [1, 2, 3] scenCt
    (fun i => i) cmpHalf fullScen [(0, 2), (1, 2)] hfill
  exact ⟨qNineTenths_val, rfl, hfill, hcalls, hcount⟩

/-- C9: matrix completion only fills cells that are zero in the Stored
matrix: every cell of Cind holding a nonzero stored value is unchanged
in the completed Full matrix (the in-place zero test against the
partially updated Full matrix is equivalent to testing Stored because
each unordered pair is visited once and writes only its own two
symmetric cells). -/
theorem C9_stored_values_never_overwritten (idf : List ℕ)
    (ct : List CEntry) (perm : ℕ → ℕ) {E : Type}
    (cmp : ℕ → ℕ → Except E ℚ)
    (hin : ∀ e ∈ famEntries idf ct, e.id1 ∈ idf)
    (hne : ∀ e ∈ famEntries idf ct, e.id1 ≠ e.id2)
    (hpair : (famEntries idf ct).Pairwise distinctPair)
    (M2 : Mat) (calls : List (ℕ × ℕ))
    (hfill : fillPairs cmp (pairList idf.length)
      (permuteMat perm (storedC idf ct)) = Except.ok (M2, calls)) :
    ∀ x y, permuteMat perm (storedC idf ct) x y ≠ 0 →
      M2 x y = permuteMat perm (storedC idf ct) x y :=
  fillPairs_ok_preserve cmp idf.length _ M2 calls
    (fun x y => storedC_symm idf ct hin hne hpair (perm x) (perm y)) hfill

/-- C9 witness: in the concrete scenario (members [1, 2, 3], stored pair
(1,2) = 9/10), the completed matrix keeps the stored value at cell
(0, 1). -/
theorem C9_witness :
    cindScen 0 1 = qNineTenths ∧ qNineTenths ≠ 0 ∧
    fullScen 0 1 = cindScen 0 1 := by
  have hfe : famEntries [1, 2, 3] scenCt = scenCt := rfl
  have hin : ∀ e ∈ famEntries [1, 2, 3] scenCt, e.id1 ∈ [1, 2, 3] := by
    rw [hfe, scenCt]
    intro e he
    rw [List.mem_singleton] at he
    subst he
    simp
  have hne : ∀ e ∈ famEntries [1, 2, 3] scenCt, e.id1 ≠ e.id2 := by
    rw [hfe, scenCt]
    intro e he
    rw [List.mem_singleton] at he
    subst he
    simp
  have hpair : (famEntries [1, 2, 3] scenCt).Pairwise distinctPair := by
    rw [hfe, scenCt]
    exact List.pairwise_singleton _ _
  have hq : qNineTenths ≠ 0 := by
    rw [qNineTenths_val]
    norm_num
  have hfill : fillPairs cmpHalf (pairList 3) cindScen =
      Except.ok (fullScen, [(0, 2), (1, 2)]) := rfl
  have h := C9_stored_values_never_overwritten [1, 2, 3] scenCt
    (fun i => i) cmpHalf hin hne hpair fullScen [(0, 2), (1, 2)] hfill 0 1
  have hc : cindScen 0 1 = qNineTenths := rfl
  refine ⟨hc, hq, h ?_⟩
  show cindScen 0 1 ≠ 0
  rw [hc]
  exact hq

/-- C5 (amended): the completion loop has no error handling: if the
comparator fails (always fails, modelling xcorr1x1 raising) and at least
one visited pair needs computing (its current cell is zero), the whole
completion aborts with that error - no best-effort matrix and no list
of failed pairs is returned. -/
theorem C5_comparator_failure_aborts {E : Type}
    (cmp : ℕ → ℕ → Except E ℚ) (e : E)
    (hfail : ∀ a b, cmp a b = Except.error e) :
    ∀ (L : List (ℕ × ℕ)) (M : Mat), (∃ p ∈ L, M p.1 p.2 = 0) →
      fillPairs cmp L M = Except.error e := by
  intro L
  induction L with
  | nil =>
    rintro M ⟨p, hp, _⟩
    exact absurd hp (List.not_mem_nil _)
  | cons hd rest ih =>
    rintro M ⟨p, hp, h0⟩
    obtain ⟨i, j⟩ := hd
    simp only [fillPairs]
    by_cases hij0 : M i j = 0
    · rw [if_pos hij0, hfail i j]
    · rw [if_neg hij0]
      apply ih
      rcases List.mem_cons.mp hp with heq | hmem
      · rw [heq] at h0
        exact absurd h0 hij0
      · exact ⟨p, hmem, h0⟩

/-- C5 counterexample: members [1, 2], empty store, a comparator that
fails on every pair: the completion returns the bare error - it aborts
instead of returning a best-effort matrix together with a list of
failed pairs. -/
theorem C5_counterexample :
    fillPairs cmpFailU (pairList 2)
      (permuteMat (fun i => i) (storedC [1, 2] [])) = Except.error () :=
  rfl

/-- C5 witness: the abort theorem applied to members [1, 2] with the
empty store (pair (0, 1) is unfilled) and the always-failing
comparator. -/
theorem C5_witness :
    (∀ a b : ℕ, cmpFailU a b = Except.error ()) ∧
    ((0, 1) ∈ pairList 2 ∧
      permuteMat (fun i => i) (storedC [1, 2] []) 0 1 = 0) ∧
    fillPairs cmpFailU (pairList 3)
      (permuteMat (fun i => i) (storedC [1, 2, 3] [])) = Except.error () := by
  refine ⟨fun a b => rfl, ⟨by decide, rfl⟩, ?_⟩
  apply C5_comparator_failure_aborts cmpFailU () (fun a b => rfl)
  exact ⟨(0, 1), by decide, rfl⟩

lemma arangeQ_pos (lo hi step : ℚ) (h : 0 < step) :
    arangeQ lo hi step =
      some ((List.range (Int.toNat (Int.ceil ((hi - lo) / step)))).map
        (fun k : ℕ => lo + (k : ℚ) * step)) := by
  unfold arangeQ
  rw [if_neg (ne_of_gt h)]

lemma edgesDecreasing_eq_false (l : List ℚ) (hl : l.Pairwise (· ≤ ·)) :
    edgesDecreasing l = false := by
  induction l with
  | nil => rfl
  | cons a rest ih =>
    cases rest with
    | nil => rfl
    | cons b rest2 =>
      have hab : a ≤ b :=
        (List.pairwise_cons.mp hl).1 b (List.mem_cons_self _ _)
      have hrest := (List.pairwise_cons.mp hl).2
      simp only [edgesDecreasing, Bool.or_eq_false_iff]
      exact ⟨decide_eq_false (not_lt.mpr hab), ih hrest⟩

lemma arangeQ_edges_pairwise (lo step : ℚ) (h : 0 ≤ step) (n : ℕ) :
    ((List.range n).map (fun k : ℕ => lo + (k : ℚ) * step)).Pairwise
      (· ≤ ·) := by
  refine List.Pairwise.map _ ?_ (List.pairwise_lt_range n)
  intro a b hab
  have hc : (a : ℚ) ≤ (b : ℚ) := by
    exact_mod_cast le_of_lt hab
  have := mul_le_mul_of_nonneg_right hc h
  linarith

/-- C6: a family whose member count is below the configured minimum, or
whose most recent event predates the window minimum, contributes no
blocks, no lifespan segment, no label and no bounding box: for a family
on which the pre-guard histogram computation does not raise (nonempty
member list, positive bin width) the contribution is Except.ok none,
and removing the family from the list leaves the entire output
(including row assignment) unchanged, regardless of its score values. -/
theorem C6_family_exclusion (P : OccParams) (f : FamIn)
    (hdt : f.dtm ≠ []) (hbin : 0 < P.binsize)
    (h : f.dtm.length < P.minplot ∨ qmax f.dtm < P.mintime) :
    familyContribution P f = Except.ok none ∧
    ∀ (pre post : List FamIn) (n : ℕ),
      occurrenceRows P (pre ++ f :: post) n =
        occurrenceRows P (pre ++ post) n := by
  have hnone : familyContribution P f = Except.ok none := by
    simp only [familyContribution]
    rw [if_neg (by simpa using hdt)]
    rw [arangeQ_pos _ _ _ hbin]
    simp only []
    have hpw := arangeQ_edges_pairwise (qmin f.dtm) P.binsize
      (le_of_lt hbin) (Int.toNat (Int.ceil
        ((qmax f.dtm + P.binsize - qmin f.dtm) / P.binsize)))
    rw [if_neg (by simp [edgesDecreasing_eq_false _ hpw])]
    split_ifs with hg1 hg2 hg3
    · exfalso
      rcases h with h | h
      · omega
      · linarith
    · exfalso
      rcases h with h | h
      · omega
      · linarith
    · rfl
    · rfl
  refine ⟨hnone, ?_⟩
  intro pre post n
  induction pre generalizing n with
  | nil =>
    simp only [List.nil_append, occurrenceRows, hnone]
  | cons g rest ih =>
    simp only [List.cons_append, occurrenceRows]
    cases hg : familyContribution P g with
    | error e => rfl
    | ok oo =>
      cases oo with
      | none => exact ih n
      | some o =>
        show (match occurrenceRows P (rest ++ f :: post) (n + 1) with
          | Except.error e => Except.error e
          | Except.ok l => Except.ok ((n, o) :: l)) =
          (match occurrenceRows P (rest ++ post) (n + 1) with
          | Except.error e => Except.error e
          | Except.ok l => Except.ok ((n, o) :: l))
        rw [ih (n + 1)]

/-- C6 witness: the exclusion theorem applied to a single-member family
(below the minimum of 5): it contributes Except.ok none and the output
equals that of the empty family list. -/
theorem C6_witness :
    (([10] : List ℚ).length < 5 ∨ qmax [10] < (0 : ℚ)) ∧
    familyContribution ⟨0, 100, 5, 1, 1⟩ ⟨[10], 10, 0⟩ = Except.ok none ∧
    occurrenceRows ⟨0, 100, 5, 1, 1⟩ [⟨[10], 10, 0⟩] 0 =
      occurrenceRows ⟨0, 100, 5, 1, 1⟩ [] 0 := by
  have h : (([10] : List ℚ).length < 5 ∨ qmax [10] < (0 : ℚ)) :=
    Or.inl (by norm_num)
  have hthm := C6_family_exclusion ⟨0, 100, 5, 1, 1⟩ ⟨[10], 10, 0⟩
    (by simp) (by norm_num) h
  exact ⟨h, hthm.1, hthm.2 [] [] 0⟩

/-- C8 (amended): degenerate inputs are never rejected synchronously
with a descriptive error before computation: a family passing the two
member guards is never silently dropped - its computation either raises
along the way or emits a full contribution, regardless of an inverted
window or a degenerate bin width; a zero bin width always raises from
inside np.arange during the pre-guard histogram computation; an empty
member list raises at min() of an empty sequence; and completing the
matrix of an empty member list succeeds trivially instead of being
rejected. -/
theorem C8_no_degenerate_input_validation (P : OccParams) (f : FamIn)
    (h1 : P.minplot ≤ f.dtm.length) (h2 : P.mintime < qmax f.dtm) :
    familyContribution P f ≠ Except.ok none ∧
    (P.binsize = 0 → familyContribution P f = Except.error ()) ∧
    (∀ g : FamIn, g.dtm = [] → familyContribution P g = Except.error ()) ∧
    (∀ (E : Type) (cmp : ℕ → ℕ → Except E ℚ) (M : Mat),
      fillPairs cmp (pairList 0) M = Except.ok (M, [])) := by
  refine ⟨?_, ?_, ?_, ?_⟩
  · simp only [familyContribution]
    by_cases hemp : f.dtm.isEmpty = true
    · rw [if_pos hemp]
      simp
    · rw [if_neg hemp]
      cases arangeQ (qmin f.dtm) (qmax f.dtm + P.binsize) P.binsize with
      | none => simp
      | some edges =>
        simp only []
        by_cases hdec : edgesDecreasing edges = true
        · rw [if_pos hdec]
          simp
        · rw [if_neg hdec, if_pos h1, if_pos h2]
          split_ifs with h3 <;> simp
  · intro hb0
    simp only [familyContribution]
    by_cases hemp : f.dtm.isEmpty = true
    · rw [if_pos hemp]
    · rw [if_neg hemp]
      have harr : arangeQ (qmin f.dtm) (qmax f.dtm + P.binsize)
          P.binsize = none := by
        unfold arangeQ
        rw [hb0, if_pos rfl]
      rw [harr]
  · intro g hg
    simp only [familyContribution]
    rw [if_pos (by simp [hg])]
  · intro E cmp M
    rfl

/-- C8 counterexample: an inverted window (mintime = 200 > maxtime =
100) is not rejected: the binner emits a full contribution, including a
drawn lifespan segment with x1 = 199 > x2 = 101 and a bin block, instead
of failing synchronously with a descriptive error and producing no
partial result. -/
theorem C8_counterexample :
    (100 : ℚ) < 200 ∧
    familyContribution ⟨200, 100, 2, 1, 1⟩ ⟨[210, 211], 150, 10⟩ =
      Except.ok (some ⟨[(210, 211, 2)], true, true, true, 199, 101, 211,
        2, 209, 212⟩) := by
  refine ⟨by norm_num, ?_⟩
  have hqmax : qmax [210, 211] = (211 : ℚ) := by norm_num [qmax]
  have hqmin : qmin [210, 211] = (210 : ℚ) := by norm_num [qmin]
  have hq1 : qmax [211] = (211 : ℚ) := by norm_num [qmax]
  have hedges : arangeQ 210 (211 + 1) 1 = some [210, 211] := by
    unfold arangeQ
    rw [if_neg (by norm_num)]
    have h2 : ((211 : ℚ) + 1 - 210) / 1 = 2 := by norm_num
    rw [h2]
    have h3 : Int.toNat (Int.ceil (2 : ℚ)) = 2 := by decide
    rw [h3]
    norm_num [List.range_succ]
  have hcounts : histCounts [210, 211] [210, 211] = [2] := by
    norm_num [histCounts, List.range_succ, List.getD, List.filter]
  have hgl : generateLines 200 100 1 150 10 =
      (true, true, true, 199, 101) := by
    norm_num [generateLines]
  simp only [familyContribution, hqmax, hqmin, hedges, hcounts, hgl]
  norm_num [List.zip, List.zipWith, List.filter, hq1, edgesDecreasing]

/-- C8 witness: the no-validation theorem applied concretely: with the
inverted window [200, 100] and bin width 1 the guards-passing family is
not dropped, with bin width 0 the computation raises from np.arange,
and the empty-member-list completion returns successfully. -/
theorem C8_witness :
    2 ≤ ([210, 211] : List ℚ).length ∧ (200 : ℚ) < qmax [210, 211] ∧
    familyContribution ⟨200, 100, 2, 1, 1⟩ ⟨[210, 211], 150, 10⟩ ≠
      Except.ok none ∧
    familyContribution ⟨200, 100, 2, 0, 1⟩ ⟨[210, 211], 150, 10⟩ =
      Except.error () ∧
    fillPairs cmpFailU (pairList 0) (eyeM 0) = Except.ok (eyeM 0, []) := by
  have hq : (200 : ℚ) < qmax [210, 211] := by norm_num [qmax]
  have h := C8_no_degenerate_input_validation ⟨200, 100, 2, 1, 1⟩
    ⟨[210, 211], 150, 10⟩ (by norm_num) hq
  have h0 := C8_no_degenerate_input_validation ⟨200, 100, 2, 0, 1⟩
    ⟨[210, 211], 150, 10⟩ (by norm_num) hq
  exact ⟨by norm_num, hq, h.1, h0.2.1 rfl, h.2.2.2 Unit cmpFailU (eyeM 0)⟩
